import Mathlib

/-!
Verification of the Fast-Copy line-manager utility (src/JS/script.JS).

Strings are embedded as lists of characters (`Line`).  The JavaScript
builtins used by the code (`String.prototype.trim`, `String.prototype.split`,
`JSON.parse` / `JSON.stringify`, `localStorage`) are modelled explicitly:
trimming and newline-splitting as executable list functions, the JSON layer
of the single session record by an inductive `Stored` type (raw non-JSON
text, a JSON null, or a session object with optional fields), and
`localStorage` for the `savedLines` key as an `Option Stored` cell.
-/

/-- A JavaScript string, represented as its list of characters. -/
abbrev Line := List Char

/-- The whitespace characters recognised by JavaScript trimming
(space, tab, newline, carriage return, vertical tab, form feed). -/
def jsWhitespace (c : Char) : Bool :=
  c = ' ' || c = '\t' || c = '\n' || c = '\r' || c = '\x0b' || c = '\x0c'

/-- Leading-whitespace removal, the front half of `String.prototype.trim`. -/
def trimL (l : Line) : Line := l.dropWhile jsWhitespace

/-- Trailing-whitespace removal, the back half of `String.prototype.trim`. -/
def trimR (l : Line) : Line := (l.reverse.dropWhile jsWhitespace).reverse

/-- `String.prototype.trim`: remove leading and trailing whitespace. -/
def jsTrim (l : Line) : Line := trimR (trimL l)

/-- `text.split(newline)`: split a character list at newline characters.
Like the JavaScript builtin it always returns at least one segment. -/
def splitLines : Line → List Line
  | [] => [[]]
  | c :: rest =>
    if c = '\n' then [] :: splitLines rest
    else
      match splitLines rest with
      | [] => [[c]]
      | seg :: segs => (c :: seg) :: segs

namespace Utils

/-- `Utils.isEmpty(text)` from script.JS: `!text || !text.trim()`.
For a string argument this holds exactly when the string is empty or
trims to the empty string. -/
def isEmpty (text : Line) : Bool := text.isEmpty || (jsTrim text).isEmpty

end Utils

/-! ## Basic lemmas about trimming and splitting -/

theorem dropWhile_idem (p : Char → Bool) (l : Line) :
    (l.dropWhile p).dropWhile p = l.dropWhile p := by
  induction l with
  | nil => rfl
  | cons a t ih =>
    by_cases h : p a = true
    · simp [List.dropWhile, h, ih]
    · simp [List.dropWhile, h]

theorem trimL_idem (l : Line) : trimL (trimL l) = trimL l :=
  dropWhile_idem jsWhitespace l

theorem trimR_idem (l : Line) : trimR (trimR l) = trimR l := by
  simp [trimR, dropWhile_idem]

/-- `trimR` produces a prefix of its argument. -/
theorem trimR_prefix_self (l : Line) : trimR l <+: l := by
  have h : l.reverse.dropWhile jsWhitespace <:+ l.reverse := List.dropWhile_suffix _
  obtain ⟨u, hu⟩ := h
  refine ⟨u.reverse, ?_⟩
  have := congrArg List.reverse hu
  simpa [trimR] using this

/-- If `trimL` leaves a list unchanged, its head is not whitespace,
so `trimL` also leaves every prefix of it unchanged. -/
theorem trimL_eq_self_of_prefix {l m : Line} (hm : trimL m = m) (hp : l <+: m) :
    trimL l = l := by
  cases l with
  | nil => rfl
  | cons a t =>
    obtain ⟨u, hu⟩ := hp
    have hhead : jsWhitespace a = false := by
      cases h : jsWhitespace a with
      | false => rfl
      | true =>
        exfalso
        have hdrop : trimL m = trimL (t ++ u) := by
          rw [← hu]; simp [trimL, List.dropWhile, h]
        rw [hm] at hdrop
        have hlen := congrArg List.length (hu.trans hdrop)
        have hle : (trimL (t ++ u)).length ≤ (t ++ u).length :=
          (List.dropWhile_suffix jsWhitespace).length_le
        simp [List.length_append] at hlen hle
        omega
    simp [trimL, List.dropWhile, hhead]

theorem jsTrim_idem (l : Line) : jsTrim (jsTrim l) = jsTrim l := by
  unfold jsTrim
  have h1 : trimL (trimR (trimL l)) = trimR (trimL l) :=
    trimL_eq_self_of_prefix (trimL_idem l) (trimR_prefix_self (trimL l))
  rw [h1, trimR_idem]

/-- A list trims to nothing exactly when all of its characters are whitespace. -/
theorem jsTrim_eq_nil_iff (l : Line) :
    jsTrim l = [] ↔ ∀ c ∈ l, jsWhitespace c = true := by
  constructor
  · intro h c hc
    have hR : (trimL l).reverse.dropWhile jsWhitespace = [] := by
      have := congrArg List.reverse h
      simpa [jsTrim, trimR] using this
    have hall : ∀ c ∈ trimL l, jsWhitespace c = true := by
      intro c hc
      have : c ∈ (trimL l).reverse := by simpa using hc
      exact List.dropWhile_eq_nil_iff.mp hR c this
    have hsplit : l.takeWhile jsWhitespace ++ l.dropWhile jsWhitespace = l :=
      List.takeWhile_append_dropWhile jsWhitespace l
    rw [← hsplit] at hc
    rcases List.mem_append.mp hc with htk | hdr
    · exact List.mem_takeWhile_imp htk
    · exact hall c hdr
  · intro h
    have h1 : trimL l = [] := by
      apply List.dropWhile_eq_nil_iff.mpr
      exact h
    simp [jsTrim, h1, trimR]

/-- Every non-newline character of the input lands in some segment of the split. -/
theorem mem_splitLines {t : Line} {c : Char} (hc : c ∈ t) (hne : c ≠ '\n') :
    ∃ seg ∈ splitLines t, c ∈ seg := by
  induction t with
  | nil => cases hc
  | cons a rest ih =>
    by_cases ha : a = '\n'
    · subst ha
      have hcr : c ∈ rest := by
        rcases List.mem_cons.mp hc with h | h
        · exact absurd h hne
        · exact h
      obtain ⟨seg, hseg, hcseg⟩ := ih hcr
      exact ⟨seg, by simp [splitLines, hseg], hcseg⟩
    · rcases hsp : splitLines rest with _ | ⟨seg0, segs⟩
      · rcases List.mem_cons.mp hc with h | h
        · exact ⟨[a], by simp [splitLines, ha, hsp], by simp [h]⟩
        · obtain ⟨seg, hseg, _⟩ := ih h
          rw [hsp] at hseg
          cases hseg
      · rcases List.mem_cons.mp hc with h | h
        · exact ⟨a :: seg0, by simp [splitLines, ha, hsp], by simp [h]⟩
        · obtain ⟨seg, hseg, hcseg⟩ := ih h
          rw [hsp] at hseg
          rcases List.mem_cons.mp hseg with h0 | h0
          · exact ⟨a :: seg0, by simp [splitLines, ha, hsp], by
              subst h0; exact List.mem_cons_of_mem a hcseg⟩
          · exact ⟨seg, by simp [splitLines, ha, hsp, h0], hcseg⟩

/-! ## Clipboard adapter (`ClipboardManager` in script.JS)

The browser environment the adapter probes at runtime is captured by
`ClipEnv`: whether the native secure-context clipboard exists and whether
each mechanism's underlying write would succeed. -/

/-- The runtime clipboard environment seen by `ClipboardManager`. -/
structure ClipEnv where
  hasNativeSupport : Bool
  nativeOk : Bool
  clipboardJSDefined : Bool
  clipboardJSOk : Bool
  execCommandOk : Bool
deriving DecidableEq, Repr

/-- The two failure modes of `ClipboardManager.copy`: the guard
`if (!text) throw` for empty text, and a failed copy attempt. -/
inductive CopyErr where
  | emptyText
  | clipboardUnavailable
deriving DecidableEq, Repr

/-- `ClipboardManager.copy(text)` from script.JS.  Empty text throws.
Otherwise: try the native clipboard first (falling through on failure);
then, if the ClipboardJS library is defined, return its outcome directly
(its failure is not followed by any further fallback); otherwise use the
`execCommand` fallback. -/
def ClipboardManager.copy (env : ClipEnv) (text : Line) : Except CopyErr Unit :=
  if text = [] then .error .emptyText
  else if env.hasNativeSupport && env.nativeOk then .ok ()
  else if env.clipboardJSDefined then
    if env.clipboardJSOk then .ok () else .error .clipboardUnavailable
  else if env.execCommandOk then .ok ()
  else .error .clipboardUnavailable

/-! ## Persistence adapter (`StorageManager` in script.JS)

The `savedLines` key of `localStorage` is a cell holding either nothing or
some stored payload.  The JSON layer is modelled by `Stored`: text that is
not valid JSON (on which `Utils.safeJSONParse` returns its `null`
fallback), a parsed JSON `null`, or a parsed session object whose `lines`
and `index` fields may each be absent. -/

/-- A payload held under the `savedLines` storage key. -/
inductive Stored where
  | raw (s : Line)
  | jnull
  | sess (lines : Option (List Line)) (index : Option Int) (timestamp : Int)
deriving DecidableEq, Repr

/-- The `savedLines` slot of `localStorage`: `none` when the key is absent. -/
abbrev Cell := Option Stored

/-- The value returned by `StorageManager.loadSession`. -/
structure LoadResult where
  lines : Option (List Line)
  index : Int
deriving DecidableEq, Repr

/-- JavaScript `v || 0` applied to a possibly-absent numeric field:
an absent field gives 0, and a present number is returned unchanged
(`0 || 0` is again 0). -/
def jsOrZero : Option Int → Int
  | none => 0
  | some v => v

/-- `StorageManager.saveSession(lines, index)`: serialize
`\x7blines, index, timestamp: Date.now()\x7d` under the `savedLines` key.
This models the successful write (the quota-failure path clears the key
and is external to the round-trip claims). -/
def StorageManager.saveSession (lines : List Line) (index : Int) (now : Int) : Cell :=
  some (.sess (some lines) (some index) now)

/-- `StorageManager.loadSession()` from script.JS: a missing key, an
unparseable payload, a null payload, or a payload without a truthy
`lines` field all produce the empty result; otherwise the stored lines
and `index || 0` are returned.  The function is total: no case raises. -/
def StorageManager.loadSession (cell : Cell) : LoadResult :=
  match cell with
  | none => ⟨none, 0⟩
  | some (.raw _) => ⟨none, 0⟩
  | some .jnull => ⟨none, 0⟩
  | some (.sess ls ix _) =>
    match ls with
    | none => ⟨none, 0⟩
    | some l => ⟨some l, jsOrZero ix⟩

/-- `StorageManager.clearSession()`: remove the `savedLines` key. -/
def StorageManager.clearSession (_ : Cell) : Cell := none

/-! ## Line cursor (`LineManager` in script.JS)

`LMState` is the in-memory cursor: the parsed lines and the numeric
index.  The index is an integer, as in JavaScript; the invariant claims
below establish that it stays within `[0, lines.length]`. -/

/-- The in-memory state of `LineManager`: `this.lines` and `this.index`. -/
structure LMState where
  lines : List Line
  index : Int
deriving DecidableEq, Repr

/-- `this.lines[i]` for an integer index: JavaScript array indexing,
which yields `undefined` (here `none`) when out of range. -/
def linesAt (lines : List Line) (i : Int) : Option Line :=
  if i < 0 then none else lines.get? i.toNat

/-- `Utils.isEmpty` applied to a possibly-`undefined` array element
(`!undefined` is true). -/
def jsUndefOrEmpty : Option Line → Bool
  | none => true
  | some l => Utils.isEmpty l

/-- The combined application state: the cursor plus the `savedLines`
storage cell (the only storage the session operations touch). -/
structure AppState where
  lm : LMState
  store : Cell
deriving DecidableEq, Repr

/-- `LineManager.parseLines(text)`: empty or whitespace-only input gives
`[]`; otherwise split on newline, trim each segment, and keep the
segments of positive length. -/
def LineManager.parseLines (text : Line) : List Line :=
  if Utils.isEmpty text then []
  else ((splitLines text).map jsTrim).filter (fun l => 0 < l.length)

/-- `LineManager.skipEmptyLines()`: advance the index over residual
empty entries (`while (index < lines.length && isEmpty(lines[index])) index++`). -/
def LineManager.skipEmptyLines (s : LMState) : LMState :=
  if h : s.index < (s.lines.length : Int) ∧ jsUndefOrEmpty (linesAt s.lines s.index) = true then
    LineManager.skipEmptyLines { s with index := s.index + 1 }
  else s
termination_by ((s.lines.length : Int) - s.index).toNat
decreasing_by
  obtain ⟨h1, _⟩ := h
  omega

/-- What a single cursor-advancing call reports. -/
inductive CopyOutcome where
  | listEnded
  | copied (l : Line)
  | copyFailed
  | noPrevious
  | noLines
  | cancelled
  | invalidNumber
deriving DecidableEq, Repr

/-- The cursor-level part of `LineManager.copyNext()`: skip empty lines,
report the list-ended notice when the index has reached the end,
otherwise copy the current line and, if the clipboard write succeeded,
increment the index. -/
def LineManager.copyNextLM (env : ClipEnv) (s : LMState) : CopyOutcome × LMState :=
  let s1 := LineManager.skipEmptyLines s
  if (s1.lines.length : Int) ≤ s1.index then (.listEnded, s1)
  else
    let currentLine := (linesAt s1.lines s1.index).getD []
    match ClipboardManager.copy env currentLine with
    | .ok _ => (.copied currentLine, { s1 with index := s1.index + 1 })
    | .error _ => (.copyFailed, s1)

/-- `LineManager.copyNext()` on the combined state: after a successful
copy the incremented session is saved; the error and list-ended paths
leave storage untouched. -/
def LineManager.copyNext (env : ClipEnv) (now : Int) (s : AppState) : CopyOutcome × AppState :=
  let r := LineManager.copyNextLM env s.lm
  match r.1 with
  | .copied _ => (r.1, { lm := r.2, store := StorageManager.saveSession r.2.lines r.2.index now })
  | _ => (r.1, { s with lm := r.2 })

/-- `LineManager.copyPrev()`: at index ≤ 0 report the no-previous notice
and change nothing; otherwise set `index = Math.max(0, index - 2)`, save,
and run `copyNext` from there. -/
def LineManager.copyPrev (env : ClipEnv) (now : Int) (s : AppState) : CopyOutcome × AppState :=
  if s.lm.index ≤ 0 then (.noPrevious, s)
  else
    let lm1 : LMState := { s.lm with index := max 0 (s.lm.index - 2) }
    let s1 : AppState := { lm := lm1, store := StorageManager.saveSession lm1.lines lm1.index now }
    LineManager.copyNext env now s1

/-- `LineManager.isValidLineNumber(lineNum)`: `!isNaN(lineNum) && lineNum >= 1
&& lineNum <= this.lines.length`.  `none` is the `NaN` result of `parseInt`. -/
def LineManager.isValidLineNumber (lineNum : Option Int) (total : Nat) : Bool :=
  match lineNum with
  | none => false
  | some v => decide (1 ≤ v) && decide (v ≤ (total : Int))

/-- Fold the leading run of decimal digits of a string onto an
accumulator, stopping at the first non-digit (as `parseInt` does). -/
def jsDigitsAux : Line → Nat → Nat
  | [], acc => acc
  | c :: rest, acc =>
    if c.isDigit then jsDigitsAux rest (acc * 10 + (c.toNat - 48)) else acc

/-- The value of the leading digit run of a string, `none` when the
string does not start with a digit. -/
def jsLeadingDigits : Line → Option Nat
  | [] => none
  | c :: rest => if c.isDigit then some (jsDigitsAux (c :: rest) 0) else none

/-- `parseInt(s)` in radix 10: skip leading whitespace, read an optional
sign and then the leading run of decimal digits, ignoring everything
after it — so a fractional entry such as "3.7" parses to 3.  `none` is
`NaN` (no digits at all, including the empty string). -/
def jsParseInt (s : Line) : Option Int :=
  match trimL s with
  | '-' :: rest => (jsLeadingDigits rest).map (fun n => -(n : Int))
  | '+' :: rest => (jsLeadingDigits rest).map (fun n => (n : Int))
  | t => (jsLeadingDigits t).map (fun n => (n : Int))

/-- `LineManager.copyByNumber()`: no-op on an empty line list; the dialog
result carries a confirmation flag and the entered value as a raw string
(`none` = null, the empty string is falsy at `!result.value`).  The code
applies `parseInt` to the entry — truncating fractional input — and
checks `isValidLineNumber`: a valid result `n` jumps to `index = n - 1`,
saves, and runs `copyNext`; `NaN` or an out-of-range result reports the
invalid-number error with the state unchanged. -/
def LineManager.copyByNumber (env : ClipEnv) (now : Int) (confirmed : Bool)
    (value : Option Line) (s : AppState) : CopyOutcome × AppState :=
  if s.lm.lines.length = 0 then (.noLines, s)
  else if confirmed = false then (.cancelled, s)
  else match value with
  | none => (.cancelled, s)
  | some v =>
    if v = [] then (.cancelled, s)
    else match jsParseInt v with
    | none => (.invalidNumber, s)
    | some n =>
      if LineManager.isValidLineNumber (some n) s.lm.lines.length then
        let lm1 : LMState := { s.lm with index := n - 1 }
        let s1 : AppState := { lm := lm1, store := StorageManager.saveSession lm1.lines lm1.index now }
        LineManager.copyNext env now s1
      else (.invalidNumber, s)

/-- The newline join `this.lines.join(backslash n)` used by `copyAll`. -/
def joinLines (ls : List Line) : Line := List.intercalate ['\n'] ls

/-- The outcome of `LineManager.copyAll()`. -/
inductive CopyAllOutcome where
  | noLines
  | success (copied : Line)
  | failed (e : CopyErr)
deriving DecidableEq, Repr

/-- `LineManager.copyAll()`: no-op on an empty list; otherwise copy the
newline join of all lines.  Neither branch touches `lines`, `index`, or
the stored session. -/
def LineManager.copyAll (env : ClipEnv) (s : AppState) : CopyAllOutcome × AppState :=
  if s.lm.lines.length = 0 then (.noLines, s)
  else
    let allText := joinLines s.lm.lines
    match ClipboardManager.copy env allText with
    | .ok _ => (.success allText, s)
    | .error e => (.failed e, s)

/-- `LineManager.confirmInput()`: trim the raw input; empty input only
shows an error.  Otherwise `this.lines = parseLines(text)` (the code
assigns before checking, so an empty parse would leave the new empty
lines with the old index); a non-empty parse resets the index to 0 and
saves the fresh session. -/
def LineManager.confirmInput (text : Line) (now : Int) (s : AppState) : AppState :=
  let t := jsTrim text
  if Utils.isEmpty t then s
  else
    let lines := LineManager.parseLines t
    if lines.length = 0 then { s with lm := { s.lm with lines := lines } }
    else { lm := { lines := lines, index := 0 }, store := StorageManager.saveSession lines 0 now }

/-- `LineManager.resetAll()`: clear the cursor and remove the stored session. -/
def LineManager.resetAll (s : AppState) : AppState :=
  { lm := { lines := [], index := 0 }, store := StorageManager.clearSession s.store }

/-- `LineManager.loadSessionDirect()`: read the stored session; when it
carries a non-empty line list, adopt its lines and `index || 0`
(`loadSession` already applied the `|| 0`), otherwise change nothing. -/
def LineManager.loadSessionDirect (s : AppState) : AppState :=
  let sessionData := StorageManager.loadSession s.store
  match sessionData.lines with
  | some l =>
    if 0 < l.length then
      { s with lm := { lines := l, index := sessionData.index } }
    else s
  | none => s

/-- `LineManager.updateStatus()` progress percentage:
`Math.round((index / lines.length) * 100)`, i.e. the nearest integer to
`100 * index / length` with ties rounded up, computed here exactly as
`(200 * index + length) / (2 * length)` in natural division. -/
def LineManager.updateStatusPercent (s : LMState) : Nat :=
  (200 * s.index.toNat + s.lines.length) / (2 * s.lines.length)

/-! ## Invariants and helper lemmas -/

/-- The cursor bound from the spec's data model: `0 ≤ index ≤ lines.length`. -/
def LMInv (s : LMState) : Prop := 0 ≤ s.index ∧ s.index ≤ (s.lines.length : Int)

/-- Well-formedness of the `savedLines` cell: any stored session object
that carries both fields keeps its index within the bounds of its lines.
Every write the program performs preserves this. -/
def StoreWF (c : Cell) : Prop :=
  ∀ ls ix ts, c = some (.sess (some ls) (some ix) ts) → 0 ≤ ix ∧ ix ≤ (ls.length : Int)

/-- The combined invariant on the application state. -/
def AppInv (s : AppState) : Prop := LMInv s.lm ∧ StoreWF s.store

theorem storeWF_none : StoreWF none := by
  intro ls ix ts h
  cases h

theorem storeWF_save {lines : List Line} {idx now : Int}
    (h0 : 0 ≤ idx) (h1 : idx ≤ (lines.length : Int)) :
    StoreWF (StorageManager.saveSession lines idx now) := by
  intro ls ix ts h
  simp only [StorageManager.saveSession, Option.some.injEq, Stored.sess.injEq] at h
  obtain ⟨hls, hix, _⟩ := h
  subst hls
  subst hix
  exact ⟨h0, h1⟩

/-- `skipEmptyLines` never changes the lines, never moves the index
backwards, and never moves it past `max index length`. -/
theorem skipEmptyLines_spec (s : LMState) :
    (LineManager.skipEmptyLines s).lines = s.lines ∧
    s.index ≤ (LineManager.skipEmptyLines s).index ∧
    (LineManager.skipEmptyLines s).index ≤ max s.index (s.lines.length : Int) := by
  induction s using LineManager.skipEmptyLines.induct with
  | case1 s h ih =>
    obtain ⟨h1, h2⟩ := h
    rw [LineManager.skipEmptyLines, dif_pos ⟨h1, h2⟩]
    obtain ⟨ihl, ihge, ihle⟩ := ih
    dsimp only at ihl ihge ihle
    exact ⟨ihl, by omega, by omega⟩
  | case2 s h =>
    rw [LineManager.skipEmptyLines, dif_neg h]
    exact ⟨rfl, le_refl _, le_max_left _ _⟩

/-- In-range indexing into the line list. -/
theorem linesAt_eq (L : List Line) (i : Int) (h0 : 0 ≤ i) (hlt : i < (L.length : Int)) :
    ∃ l, linesAt L i = some l ∧ l ∈ L ∧ L.getD i.toNat [] = l := by
  have hnat : i.toNat < L.length := by omega
  refine ⟨L.get ⟨i.toNat, hnat⟩, ?_, List.get_mem _ _ _, ?_⟩
  · simp only [linesAt, if_neg (by omega : ¬i < 0)]
    exact List.get?_eq_get hnat
  · simp [List.getD_eq_getElem?_getD, List.getElem?_eq_getElem hnat]

/-- On a state whose lines are all non-empty and whose index is
non-negative, `skipEmptyLines` does nothing. -/
theorem skipEmptyLines_clean (s : LMState)
    (hclean : ∀ l ∈ s.lines, Utils.isEmpty l = false) (hi : 0 ≤ s.index) :
    LineManager.skipEmptyLines s = s := by
  rw [LineManager.skipEmptyLines, dif_neg]
  rintro ⟨h1, h2⟩
  obtain ⟨l, hat, hmem, _⟩ := linesAt_eq s.lines s.index hi h1
  rw [hat] at h2
  simp only [jsUndefOrEmpty] at h2
  rw [hclean l hmem] at h2
  cases h2

/-- A line that `Utils.isEmpty` rejects is not the empty list. -/
theorem ne_nil_of_not_isEmpty {l : Line} (h : Utils.isEmpty l = false) : l ≠ [] := by
  intro hnil
  subst hnil
  simp [Utils.isEmpty] at h

/-- One in-range `copyNext` step of the cursor on a clean state with a
working clipboard: it returns the current line and increments the index. -/
theorem copyNextLM_step (env : ClipEnv) (L : List Line) (i : Int)
    (hclean : ∀ l ∈ L, Utils.isEmpty l = false)
    (henv : ∀ t : Line, t ≠ [] → ClipboardManager.copy env t = Except.ok ())
    (h0 : 0 ≤ i) (hlt : i < (L.length : Int)) :
    LineManager.copyNextLM env ⟨L, i⟩ =
      (.copied (L.getD i.toNat []), ⟨L, i + 1⟩) := by
  unfold LineManager.copyNextLM
  rw [skipEmptyLines_clean ⟨L, i⟩ hclean h0]
  obtain ⟨l, hat, hmem, hgetD⟩ := linesAt_eq L i h0 hlt
  simp only [hat, Option.getD_some]
  rw [if_neg (by simpa using not_le.mpr hlt)]
  rw [henv l (ne_nil_of_not_isEmpty (hclean l hmem))]
  rw [hgetD]

/-- At the end of the list, a clean `copyNext` reports the list-ended
notice and leaves the cursor untouched. -/
theorem copyNextLM_ended (env : ClipEnv) (s : LMState)
    (hclean : ∀ l ∈ s.lines, Utils.isEmpty l = false)
    (h0 : 0 ≤ s.index) (hend : (s.lines.length : Int) ≤ s.index) :
    LineManager.copyNextLM env s = (.listEnded, s) := by
  unfold LineManager.copyNextLM
  rw [skipEmptyLines_clean s hclean h0]
  rw [if_pos hend]

/-- Non-blank input always parses to at least one line: some character is
not whitespace, it survives in some trimmed segment of the split, and the
filter keeps that segment. -/
theorem parseLines_ne_nil {t : Line} (h : Utils.isEmpty t = false) :
    LineManager.parseLines t ≠ [] := by
  simp only [Utils.isEmpty, Bool.or_eq_false_iff, List.isEmpty_eq_false] at h
  obtain ⟨ht, htrim⟩ := h
  have hex : ∃ c ∈ t, ¬jsWhitespace c = true := by
    by_contra hall
    push_neg at hall
    exact htrim ((jsTrim_eq_nil_iff t).mpr hall)
  obtain ⟨c, hct, hcws⟩ := hex
  have hcne : c ≠ '\n' := by
    intro hcn
    subst hcn
    exact hcws (by decide)
  obtain ⟨seg, hsegmem, hcseg⟩ := mem_splitLines hct hcne
  have hsegtrim : jsTrim seg ≠ [] := by
    intro hnil
    exact hcws ((jsTrim_eq_nil_iff seg).mp hnil c hcseg)
  unfold LineManager.parseLines
  rw [if_neg (by simp [Utils.isEmpty, ht, htrim])]
  intro hfil
  have hmem : jsTrim seg ∈ (splitLines t).map jsTrim := List.mem_map_of_mem jsTrim hsegmem
  have := List.filter_eq_nil_iff.mp hfil (jsTrim seg) hmem
  simp [List.length_pos] at this
  exact hsegtrim this

/-- The cursor part of `copyNext` preserves the cursor bound and never
changes the lines. -/
theorem copyNextLM_inv (env : ClipEnv) (s : LMState) (h : LMInv s) :
    LMInv (LineManager.copyNextLM env s).2 ∧
    (LineManager.copyNextLM env s).2.lines = s.lines := by
  obtain ⟨h0, h1⟩ := h
  obtain ⟨hl, hge, hle⟩ := skipEmptyLines_spec s
  have hlen := congrArg List.length hl
  unfold LineManager.copyNextLM
  dsimp only
  split
  next hend =>
    exact ⟨⟨by dsimp only; omega, by dsimp only; omega⟩, hl⟩
  next hend =>
    split
    next =>
      exact ⟨⟨by dsimp only; omega, by dsimp only; omega⟩, hl⟩
    next =>
      exact ⟨⟨by dsimp only; omega, by dsimp only; omega⟩, hl⟩

/-- `copyNext` on the combined state preserves the application invariant. -/
theorem copyNext_inv (env : ClipEnv) (now : Int) (s : AppState) (h : AppInv s) :
    AppInv (LineManager.copyNext env now s).2 := by
  obtain ⟨hlm, hst⟩ := h
  obtain ⟨hinv, _⟩ := copyNextLM_inv env s.lm hlm
  unfold LineManager.copyNext
  dsimp only
  split
  next =>
    exact ⟨hinv, storeWF_save hinv.1 hinv.2⟩
  next =>
    exact ⟨hinv, hst⟩

/-- The operations of the line manager, with the external inputs each one
consumes (the raw text, the clipboard environment, the clock, the dialog
result). -/
inductive Op where
  | confirmInput (text : Line) (now : Int)
  | copyNext (env : ClipEnv) (now : Int)
  | copyPrev (env : ClipEnv) (now : Int)
  | copyByNumber (env : ClipEnv) (now : Int) (confirmed : Bool) (value : Option Line)
  | skipEmpty
  | copyAllLines (env : ClipEnv)
  | resetAll
  | loadSessionDirect
deriving Repr

/-- The state transformation each operation performs. -/
def applyOp : Op → AppState → AppState
  | .confirmInput text now, s => LineManager.confirmInput text now s
  | .copyNext env now, s => (LineManager.copyNext env now s).2
  | .copyPrev env now, s => (LineManager.copyPrev env now s).2
  | .copyByNumber env now c v, s => (LineManager.copyByNumber env now c v s).2
  | .skipEmpty, s => { s with lm := LineManager.skipEmptyLines s.lm }
  | .copyAllLines env, s => (LineManager.copyAll env s).2
  | .resetAll, s => LineManager.resetAll s
  | .loadSessionDirect, s => LineManager.loadSessionDirect s

/-- Claim C1: for every reachable state of the line manager the cursor
index never exceeds `lines.length`: every operation (confirmInput/reset,
copyNext/currentAndAdvance, copyPrev/retreat, copyByNumber/jumpTo,
skipEmptyLines, resetAll, and restoring a session via loadSessionDirect)
preserves `0 ≤ index ≤ lines.length` (together with the matching bound on
any stored session, which the program's own writes always establish). -/
theorem every_op_preserves_cursor_bound (op : Op) (s : AppState) (h : AppInv s) :
    AppInv (applyOp op s) := by
  obtain ⟨⟨h0, h1⟩, hst⟩ := h
  cases op with
  | confirmInput text now =>
    simp only [applyOp]
    unfold LineManager.confirmInput
    dsimp only
    split
    · exact ⟨⟨h0, h1⟩, hst⟩
    next hne =>
      split
      next hzero =>
        exfalso
        have hfalse : Utils.isEmpty (jsTrim text) = false := by
          cases hb : Utils.isEmpty (jsTrim text) with
          | false => rfl
          | true => exact absurd hb hne
        exact parseLines_ne_nil hfalse (List.length_eq_zero.mp hzero)
      next =>
        exact ⟨⟨le_refl 0, by dsimp only; omega⟩, storeWF_save (le_refl 0) (by omega)⟩
  | copyNext env now =>
    exact copyNext_inv env now s ⟨⟨h0, h1⟩, hst⟩
  | copyPrev env now =>
    simp only [applyOp]
    unfold LineManager.copyPrev
    dsimp only
    split
    · exact ⟨⟨h0, h1⟩, hst⟩
    next hpos =>
      apply copyNext_inv
      exact ⟨⟨by first | omega | (dsimp only; omega), by first | omega | (dsimp only; omega)⟩,
        storeWF_save (by first | omega | (dsimp only; omega))
          (by first | omega | (dsimp only; omega))⟩
  | copyByNumber env now confirmed value =>
    simp only [applyOp]
    unfold LineManager.copyByNumber
    dsimp only
    split
    · exact ⟨⟨h0, h1⟩, hst⟩
    next hlen0 =>
      split
      · exact ⟨⟨h0, h1⟩, hst⟩
      next hconf =>
        split
        · exact ⟨⟨h0, h1⟩, hst⟩
        next v =>
          split
          · exact ⟨⟨h0, h1⟩, hst⟩
          next hv =>
            split
            · exact ⟨⟨h0, h1⟩, hst⟩
            next n hn =>
              split
              next hvalid =>
                simp only [LineManager.isValidLineNumber, Bool.and_eq_true,
                  decide_eq_true_eq] at hvalid
                apply copyNext_inv
                exact ⟨⟨by first | omega | (dsimp only; omega),
                  by first | omega | (dsimp only; omega)⟩,
                  storeWF_save (by first | omega | (dsimp only; omega))
                    (by first | omega | (dsimp only; omega))⟩
              next =>
                exact ⟨⟨h0, h1⟩, hst⟩
  | skipEmpty =>
    simp only [applyOp]
    obtain ⟨hl, hge, hle⟩ := skipEmptyLines_spec s.lm
    have hlen := congrArg List.length hl
    exact ⟨⟨by dsimp only; omega, by dsimp only; omega⟩, hst⟩
  | copyAllLines env =>
    simp only [applyOp]
    unfold LineManager.copyAll
    dsimp only
    split
    · exact ⟨⟨h0, h1⟩, hst⟩
    · split
      next => exact ⟨⟨h0, h1⟩, hst⟩
      next => exact ⟨⟨h0, h1⟩, hst⟩
  | resetAll =>
    simp only [applyOp]
    unfold LineManager.resetAll StorageManager.clearSession
    exact ⟨⟨le_refl 0, by simp⟩, storeWF_none⟩
  | loadSessionDirect =>
    simp only [applyOp]
    unfold LineManager.loadSessionDirect
    dsimp only
    rcases hs : s.store with _ | st
    · exact ⟨⟨h0, h1⟩, hst⟩
    · cases st with
      | raw r => exact ⟨⟨h0, h1⟩, hst⟩
      | jnull => exact ⟨⟨h0, h1⟩, hst⟩
      | sess ls ix ts =>
        cases ls with
        | none => exact ⟨⟨h0, h1⟩, hst⟩
        | some l =>
          simp only [StorageManager.loadSession]
          split
          next hlpos =>
            refine ⟨⟨?_, ?_⟩, hs ▸ hst⟩
            · cases ix with
              | none => simp only [jsOrZero]; omega
              | some i =>
                have hbound := hst l i ts hs
                simp only [jsOrZero]
                exact hbound.1
            · cases ix with
              | none => simp only [jsOrZero]; omega
              | some i =>
                have hbound := hst l i ts hs
                simp only [jsOrZero]
                exact hbound.2
          next =>
            exact ⟨⟨h0, h1⟩, hs ▸ hst⟩

/-- Witness for C1 at a concrete operation and state. -/
theorem every_op_preserves_cursor_bound_holds :
    AppInv (applyOp (Op.copyNext ⟨true, true, true, true, true⟩ 5)
      ⟨⟨[['a'], ['b']], 1⟩, none⟩) :=
  every_op_preserves_cursor_bound (Op.copyNext ⟨true, true, true, true, true⟩ 5)
    ⟨⟨[['a'], ['b']], 1⟩, none⟩ ⟨⟨by decide, by decide⟩, storeWF_none⟩

/-! ## Iterated cursor advancement (for the traversal claim) -/

/-- Iterate the cursor part of `copyNext`, collecting the copied lines and
stopping at the first call that does not copy. -/
def runCopyNextLM (env : ClipEnv) : Nat → LMState → List Line × LMState
  | 0, s => ([], s)
  | n + 1, s =>
    match LineManager.copyNextLM env s with
    | (.copied l, s1) =>
      let r := runCopyNextLM env n s1
      (l :: r.1, r.2)
    | (_, s1) => ([], s1)

/-- A working clipboard environment: every mechanism present and succeeding. -/
def allEnv : ClipEnv := ⟨true, true, true, true, true⟩

theorem allEnv_copy_ok (t : Line) (ht : t ≠ []) :
    ClipboardManager.copy allEnv t = Except.ok () := by
  simp [ClipboardManager.copy, allEnv, ht]

/-- Running the remaining `k` advances from position `i` of a clean line
list yields exactly the suffix from `i` and parks the index at the end. -/
theorem runCopyNextLM_clean (env : ClipEnv) (L : List Line)
    (hclean : ∀ l ∈ L, Utils.isEmpty l = false)
    (henv : ∀ t : Line, t ≠ [] → ClipboardManager.copy env t = Except.ok ()) :
    ∀ (k i : Nat), i + k = L.length →
      runCopyNextLM env k ⟨L, (i : Int)⟩ = (L.drop i, ⟨L, (L.length : Int)⟩) := by
  intro k
  induction k with
  | zero =>
    intro i hi
    have hil : i = L.length := by omega
    subst hil
    simp [runCopyNextLM, List.drop_length]
  | succ n ih =>
    intro i hi
    have hstep := copyNextLM_step env L (i : Int) hclean henv (by omega) (by omega)
    have hcast : ((i : Int) + 1) = ((i + 1 : Nat) : Int) := by omega
    rw [hcast] at hstep
    simp only [Int.toNat_ofNat] at hstep
    have ih1 := ih (i + 1) (by omega)
    simp only [runCopyNextLM, hstep, ih1]
    have hdrop : L.drop i = L.getD i [] :: L.drop (i + 1) := by
      have hlt : i < L.length := by omega
      rw [List.getD_eq_getElem?_getD, List.getElem?_eq_getElem hlt, Option.getD_some]
      exact List.drop_eq_getElem_cons hlt
    rw [hdrop]

/-- Claim C2: for every non-empty clean line list `L`, starting from
`reset` (index 0) with a working clipboard, advancing `L.length` times
returns every line of `L` in original order exactly once and parks the
index at `L.length`; the next call reports the list-ended notice without
changing the state. -/
theorem reset_then_advance_visits_all (L : List Line) (env : ClipEnv)
    (hne : L ≠ [])
    (hclean : ∀ l ∈ L, Utils.isEmpty l = false)
    (henv : ∀ t : Line, t ≠ [] → ClipboardManager.copy env t = Except.ok ()) :
    runCopyNextLM env L.length ⟨L, 0⟩ = (L, ⟨L, (L.length : Int)⟩) ∧
    LineManager.copyNextLM env ⟨L, (L.length : Int)⟩ =
      (.listEnded, ⟨L, (L.length : Int)⟩) := by
  constructor
  · have h := runCopyNextLM_clean env L hclean henv L.length 0 (by omega)
    simpa using h
  · exact copyNextLM_ended env ⟨L, (L.length : Int)⟩ hclean (by dsimp only; omega)
      (by dsimp only; omega)

/-- Witness for C2 on the two-line list. -/
theorem reset_then_advance_visits_all_holds :
    runCopyNextLM allEnv 2 ⟨[['a'], ['b']], 0⟩ = ([['a'], ['b']], ⟨[['a'], ['b']], 2⟩) :=
  (reset_then_advance_visits_all [['a'], ['b']] allEnv (by decide) (by decide)
    allEnv_copy_ok).1

/-- Counterexample to claim C3 as stated: the claim says `jumpTo` fails
with the invalid-number error and leaves the cursor unchanged whenever
the requested number is not an integer in `[1, m]`.  But the dialog entry
"3.7" — not an integer — is truncated by `parseInt` to 3 (script.JS line
327), passes `isValidLineNumber`, and on a 3-line session the program
copies line 3 and moves the cursor instead of failing. -/
theorem jumpTo_truncates_fractional_request :
    jsParseInt ['3', '.', '7'] = some 3 ∧
    LineManager.copyByNumber allEnv 0 true (some ['3', '.', '7'])
        ⟨⟨[['a'], ['b'], ['c']], 0⟩, none⟩ =
      (.copied ['c'],
        ⟨⟨[['a'], ['b'], ['c']], 3⟩,
          StorageManager.saveSession [['a'], ['b'], ['c']] 3 0⟩) ∧
    LineManager.copyByNumber allEnv 0 true (some ['3', '.', '7'])
        ⟨⟨[['a'], ['b'], ['c']], 0⟩, none⟩ ≠
      (.invalidNumber, ⟨⟨[['a'], ['b'], ['c']], 0⟩, none⟩) := by
  have hfull : LineManager.copyByNumber allEnv 0 true (some ['3', '.', '7'])
      ⟨⟨[['a'], ['b'], ['c']], 0⟩, none⟩ =
      (.copied ['c'],
        ⟨⟨[['a'], ['b'], ['c']], 3⟩,
          StorageManager.saveSession [['a'], ['b'], ['c']] 3 0⟩) := by
    have hstep := copyNextLM_step allEnv [['a'], ['b'], ['c']] ((3 : Int) - 1)
      (by decide) allEnv_copy_ok (by decide) (by decide)
    unfold LineManager.copyByNumber
    rw [if_neg (by decide), if_neg (by decide)]
    dsimp only
    rw [if_neg (by decide)]
    rw [show jsParseInt ['3', '.', '7'] = some 3 from by decide]
    dsimp only
    rw [if_pos (by decide)]
    unfold LineManager.copyNext
    dsimp only
    rw [hstep]
    decide
  refine ⟨by decide, hfull, ?_⟩
  rw [hfull]
  decide

/-- Claim C3 amended: on a session with lines loaded, `copyByNumber`
applies `parseInt` to the entered value; it reports the invalid-number
error with the state unchanged when the entry parses to `NaN` or to an
integer outside `[1, lines.length]`; when the entry parses to
`n ∈ [1, lines.length]` — which includes fractional entries, truncated —
it sets `index = n - 1` and the triggered `copyNext` returns line `n`
(1-based), leaving the cursor at `n`. -/
theorem jumpTo_validates_parsed_number (env : ClipEnv) (now : Int) (s : AppState)
    (v : Line) (hlen : 0 < s.lm.lines.length) :
    (v ≠ [] → jsParseInt v = none →
      LineManager.copyByNumber env now true (some v) s = (.invalidNumber, s)) ∧
    (∀ n : Int, jsParseInt v = some n → ¬(1 ≤ n ∧ n ≤ (s.lm.lines.length : Int)) →
      LineManager.copyByNumber env now true (some v) s = (.invalidNumber, s)) ∧
    (∀ n : Int, jsParseInt v = some n → (1 ≤ n ∧ n ≤ (s.lm.lines.length : Int)) →
      (∀ l ∈ s.lm.lines, Utils.isEmpty l = false) →
      (∀ t : Line, t ≠ [] → ClipboardManager.copy env t = Except.ok ()) →
      (LineManager.copyByNumber env now true (some v) s).1 =
        .copied (s.lm.lines.getD (n - 1).toNat []) ∧
      (LineManager.copyByNumber env now true (some v) s).2.lm =
        ⟨s.lm.lines, n⟩) := by
  have hvne : ∀ n : Int, jsParseInt v = some n → v ≠ [] := by
    intro n hn hnil
    rw [hnil, show jsParseInt ([] : Line) = none from by decide] at hn
    cases hn
  refine ⟨?_, ?_, ?_⟩
  · intro hv hparse
    unfold LineManager.copyByNumber
    rw [if_neg (by omega), if_neg (by simp)]
    dsimp only
    rw [if_neg hv, hparse]
  · intro n hparse hrange
    unfold LineManager.copyByNumber
    rw [if_neg (by omega), if_neg (by simp)]
    dsimp only
    rw [if_neg (hvne n hparse), hparse]
    dsimp only
    rw [if_neg (by simp [LineManager.isValidLineNumber]; omega)]
  · rintro n hparse ⟨hn1, hn2⟩ hclean henv
    unfold LineManager.copyByNumber
    rw [if_neg (by omega), if_neg (by simp)]
    dsimp only
    rw [if_neg (hvne n hparse), hparse]
    dsimp only
    rw [if_pos (by simp [LineManager.isValidLineNumber]; omega)]
    have hstep := copyNextLM_step env s.lm.lines (n - 1) hclean henv (by omega) (by omega)
    unfold LineManager.copyNext
    dsimp only
    rw [hstep]
    dsimp only
    refine ⟨rfl, ?_⟩
    have hn : n - 1 + 1 = n := by omega
    rw [hn]

/-- Witness for the amended C3: the entry "5" on a 3-line session is
rejected with the cursor unchanged (the spec's scenario). -/
theorem jumpTo_validates_parsed_number_holds :
    LineManager.copyByNumber allEnv 0 true (some ['5'])
        ⟨⟨[['a'], ['b'], ['c']], 0⟩, none⟩ =
      (.invalidNumber, ⟨⟨[['a'], ['b'], ['c']], 0⟩, none⟩) :=
  (jumpTo_validates_parsed_number allEnv 0 ⟨⟨[['a'], ['b'], ['c']], 0⟩, none⟩ ['5']
    (by decide)).2.1 5 (by decide) (by decide)

/-- Claim C4: `copyPrev` reports the no-previous notice and changes
nothing when `index ≤ 0`; otherwise it sets `index = max(0, index - 2)`,
saves, and continues with `copyNext` from there — so from `index = 2` the
clamped index is 0 and the triggered advance re-copies the first line. -/
theorem retreat_clamps_two_back (env : ClipEnv) (now : Int) (s : AppState) :
    (s.lm.index ≤ 0 → LineManager.copyPrev env now s = (.noPrevious, s)) ∧
    (0 < s.lm.index →
      LineManager.copyPrev env now s =
        LineManager.copyNext env now
          { lm := { lines := s.lm.lines, index := max 0 (s.lm.index - 2) },
            store := StorageManager.saveSession s.lm.lines (max 0 (s.lm.index - 2)) now }) ∧
    (s.lm.index = 2 →
      s.lm.lines ≠ [] →
      (∀ l ∈ s.lm.lines, Utils.isEmpty l = false) →
      (∀ t : Line, t ≠ [] → ClipboardManager.copy env t = Except.ok ()) →
      (LineManager.copyPrev env now s).1 = .copied (s.lm.lines.getD 0 [])) := by
  refine ⟨?_, ?_, ?_⟩
  · intro hle
    unfold LineManager.copyPrev
    rw [if_pos hle]
  · intro hpos
    unfold LineManager.copyPrev
    rw [if_neg (by omega)]
  · intro h2 hne hclean henv
    unfold LineManager.copyPrev
    rw [if_neg (by omega)]
    dsimp only
    have hidx : max 0 (s.lm.index - 2) = 0 := by omega
    rw [hidx]
    have hlt : (0 : Int) < (s.lm.lines.length : Int) := by
      have := List.length_pos.mpr hne
      omega
    have hstep := copyNextLM_step env s.lm.lines 0 hclean henv (le_refl 0) hlt
    unfold LineManager.copyNext
    dsimp only
    rw [hstep]
    simp

/-- Witness for C4: retreating from index 2 on a three-line session
re-copies the first line. -/
theorem retreat_clamps_two_back_holds :
    (LineManager.copyPrev allEnv 0 ⟨⟨[['a'], ['b'], ['c']], 2⟩, none⟩).1 =
      .copied ['a'] :=
  (retreat_clamps_two_back allEnv 0 ⟨⟨[['a'], ['b'], ['c']], 2⟩, none⟩).2.2
    (by decide) (by decide) (by decide) allEnv_copy_ok

/-- Claim C5: for every input, `parseLines` returns only non-empty,
non-whitespace, already-trimmed entries, in the same relative order as
the segments they come from in the input; empty or whitespace-only input
yields the empty list rather than an error. -/
theorem parseLines_clean_trimmed_ordered (t : Line) :
    (∀ l ∈ LineManager.parseLines t, Utils.isEmpty l = false ∧ jsTrim l = l) ∧
    List.Sublist (LineManager.parseLines t) ((splitLines t).map jsTrim) ∧
    (Utils.isEmpty t = true → LineManager.parseLines t = []) := by
  refine ⟨?_, ?_, ?_⟩
  · intro l hl
    unfold LineManager.parseLines at hl
    split at hl
    · cases hl
    · obtain ⟨hmap, hpos⟩ := List.mem_filter.mp hl
      obtain ⟨seg, _, hseg⟩ := List.mem_map.mp hmap
      have htriml : jsTrim l = l := by rw [← hseg, jsTrim_idem]
      have hlne : l ≠ [] := by
        intro hnil
        rw [hnil] at hpos
        simp at hpos
      refine ⟨?_, htriml⟩
      simp only [Utils.isEmpty, htriml, Bool.or_self]
      simpa using hlne
  · unfold LineManager.parseLines
    split
    · exact List.nil_sublist _
    · exact List.filter_sublist _
  · intro h
    unfold LineManager.parseLines
    rw [if_pos h]

/-- Witness for C5: whitespace-only input parses to the empty list. -/
theorem parseLines_clean_trimmed_ordered_holds :
    LineManager.parseLines [' '] = [] :=
  (parseLines_clean_trimmed_ordered [' ']).2.2 (by decide)

/-- Counterexample to claim C6 as stated: the claim says the displayed
percentage is `floor(index / lines.length * 100)`, but at index 2 of a
3-line session the code (`Math.round`) displays 67 while the floor is
`2 * 100 / 3 = 66`. -/
theorem progress_percent_not_floor :
    LineManager.updateStatusPercent ⟨[['a'], ['b'], ['c']], 2⟩ ≠ 2 * 100 / 3 := by
  decide

/-- Claim C6 amended: for every state with `lines.length > 0`, the
displayed percentage is `index / lines.length * 100` rounded to the
nearest integer with ties rounded up (`Math.round`), characterised by
`2 * length * p ≤ 200 * index + length < 2 * length * (p + 1)`. -/
theorem progress_percent_is_rounded (s : LMState) (h : 0 < s.lines.length) :
    2 * s.lines.length * LineManager.updateStatusPercent s
        ≤ 200 * s.index.toNat + s.lines.length ∧
    200 * s.index.toNat + s.lines.length
        < 2 * s.lines.length * (LineManager.updateStatusPercent s + 1) := by
  unfold LineManager.updateStatusPercent
  have hdm := Nat.div_add_mod (200 * s.index.toNat + s.lines.length) (2 * s.lines.length)
  have hlt := Nat.mod_lt (200 * s.index.toNat + s.lines.length)
    (show 0 < 2 * s.lines.length by omega)
  have hdist : 2 * s.lines.length *
        ((200 * s.index.toNat + s.lines.length) / (2 * s.lines.length) + 1)
      = 2 * s.lines.length *
        ((200 * s.index.toNat + s.lines.length) / (2 * s.lines.length))
        + 2 * s.lines.length := by ring
  omega

/-- Witness for the amended C6 at index 2 of a 3-line session. -/
theorem progress_percent_is_rounded_holds :
    2 * 3 * LineManager.updateStatusPercent ⟨[['a'], ['b'], ['c']], 2⟩ ≤ 200 * 2 + 3 ∧
    200 * 2 + 3 < 2 * 3 * (LineManager.updateStatusPercent ⟨[['a'], ['b'], ['c']], 2⟩ + 1) :=
  progress_percent_is_rounded ⟨[['a'], ['b'], ['c']], 2⟩ (by decide)

/-- Claim C7: `saveSession(L, i)` followed by `loadSession()` returns
exactly `(lines = L, index = i)` when the stored payload is what the
write produced. -/
theorem saveSession_loadSession_roundtrip (L : List Line) (i now : Int) :
    StorageManager.loadSession (StorageManager.saveSession L i now) = ⟨some L, i⟩ := rfl

/-- Claim C8: `loadSession` is total (it never raises) and returns the
empty result `(lines = none, index = 0)` when the key is absent, when the
payload is not valid JSON, when it parses to null, and when the parsed
object lacks a `lines` field. -/
theorem loadSession_tolerates_malformed :
    StorageManager.loadSession none = ⟨none, 0⟩ ∧
    (∀ s : Line, StorageManager.loadSession (some (.raw s)) = ⟨none, 0⟩) ∧
    StorageManager.loadSession (some .jnull) = ⟨none, 0⟩ ∧
    (∀ (ix : Option Int) (ts : Int),
      StorageManager.loadSession (some (.sess none ix ts)) = ⟨none, 0⟩) :=
  ⟨rfl, fun _ => rfl, rfl, fun _ _ => rfl⟩

/-- Counterexample to claim C9 as stated: the claim says `copy` fails only
if every mechanism fails, but when the ClipboardJS library is present and
fails, the code returns its rejection without trying the `execCommand`
mechanism — here `execCommandOk` is true (that mechanism would succeed)
yet `copy` fails. -/
theorem copy_fails_despite_working_mechanism :
    ClipboardManager.copy ⟨true, false, true, false, true⟩ ['x']
        = Except.error CopyErr.clipboardUnavailable ∧
    ClipEnv.execCommandOk ⟨true, false, true, false, true⟩ = true :=
  ⟨rfl, rfl⟩

/-- Claim C9 amended: `copy` fails with the empty-text error on empty
text; on non-empty text it tries the native secure-context write first
and then exactly one fallback — the ClipboardJS library when it is
defined, otherwise the `execCommand` fallback — succeeding iff the native
write succeeds or that selected fallback succeeds. -/
theorem copy_tries_native_then_single_fallback (env : ClipEnv) (text : Line) :
    (text = [] → ClipboardManager.copy env text = Except.error CopyErr.emptyText) ∧
    (text ≠ [] →
      (ClipboardManager.copy env text = Except.ok () ↔
        (env.hasNativeSupport = true ∧ env.nativeOk = true) ∨
        (env.clipboardJSDefined = true ∧ env.clipboardJSOk = true) ∨
        (env.clipboardJSDefined = false ∧ env.execCommandOk = true))) := by
  obtain ⟨a, b, c, d, e⟩ := env
  refine ⟨?_, ?_⟩
  · intro h
    simp [ClipboardManager.copy, h]
  · intro h
    cases a <;> cases b <;> cases c <;> cases d <;> cases e <;>
      simp [ClipboardManager.copy, h]

/-- Witness for the amended C9 in a fully working environment. -/
theorem copy_tries_native_then_single_fallback_holds :
    ClipboardManager.copy allEnv ['x'] = Except.ok () :=
  ((copy_tries_native_then_single_fallback allEnv ['x']).2 (by decide)).mpr
    (Or.inl ⟨rfl, rfl⟩)

/-- Claim C10: on a non-empty line list, `copyAll` hands the newline join
of all lines to the clipboard and returns the state — cursor and stored
session — exactly as it was, on both the success and the error path. -/
theorem copyAll_frame (env : ClipEnv) (s : AppState) (h : s.lm.lines ≠ []) :
    (LineManager.copyAll env s).2 = s ∧
    ((LineManager.copyAll env s).1 = .success (joinLines s.lm.lines) ∨
      ∃ e, (LineManager.copyAll env s).1 = .failed e) := by
  unfold LineManager.copyAll
  rw [if_neg (by rw [List.length_eq_zero]; exact h)]
  dsimp only
  split
  next => exact ⟨rfl, Or.inl rfl⟩
  next e heq => exact ⟨rfl, Or.inr ⟨e, rfl⟩⟩

/-- Witness for C10 on a two-line session. -/
theorem copyAll_frame_holds :
    (LineManager.copyAll allEnv ⟨⟨[['a'], ['b']], 0⟩, none⟩).2 =
      ⟨⟨[['a'], ['b']], 0⟩, none⟩ :=
  (copyAll_frame allEnv ⟨⟨[['a'], ['b']], 0⟩, none⟩ (by decide)).1
